import Mathlib

/-!
Verification development for the `generalised_shapelets` repository.

Shallow embedding of:
 * `src/torchshapelets/src/torchshapelets/discrepancies.py`
   (`L2Discrepancy`, `LogsignatureDiscrepancy`): torch tensors are modelled as
   row-major flat data lists paired with an explicit shape, and each torch
   operation used by `LogsignatureDiscrepancy.forward` is given its row-major
   semantics on that representation.  The external `signatory` primitives
   (`signatory.logsignature`, `signatory.logsignature_channels`) are kept
   abstract: they are passed in as function parameters, and theorems assume
   only their declared contract (fixed-dimension output; depth < 1 rejected).
 * the C++ kernel `_impl.l2_discrepancy`, which is part of the repository but
   not included under `src/`; it is modelled from the spec (section 4.1).
 * `src/experiments/uea.py` (`_pad`, `get_data`): the label relabelling loop,
   the missing-value removal-and-interpolation step, the padding/stacking
   step and the overall deterministic pipeline.

Floating point numbers are idealised as elements of an arbitrary linear
ordered field `K`; instantiating `K := ℝ` (with `HPow ℝ ℝ ℝ` given by
`Real.rpow`, which is what `torch.Tensor.norm` computes) yields the intended
real semantics, while the polymorphism keeps every definition executable on
computable fields.
-/

/-- Error taxonomy.  `shapeMismatch`, `degeneratePath` and `invalidDepth` are
the spec's names for the shape/length/depth failures (in the Python/C++ code
these surface as torch `RuntimeError`s, signatory `ValueError`s, and the C++
kernel's exceptions); `assertionError` models a failed Python `assert`;
`indexError` models an out-of-bounds index on a tensor. -/
inductive TErr where
  | shapeMismatch
  | degeneratePath
  | invalidDepth
  | assertionError
  | indexError
deriving DecidableEq, Repr

/-- Split a list into consecutive chunks of length `d` (the final chunk may be
shorter when `d` does not divide the length; all uses below divide evenly).
This realises the row-major grouping of a tensor's flat data along its last
axis. -/
def chunks (d : ℕ) : List α → List (List α)
  | [] => []
  | x :: xs =>
    if d = 0 then [] else (x :: xs.take (d - 1)) :: chunks d (xs.drop (d - 1))
termination_by l => l.length
decreasing_by
  simp only [List.length_drop, List.length_cons]
  omega

/-- Effectful map over a list in the `Except` monad, mirroring the way the
external `signatory.logsignature` primitive is applied to every element of a
flattened batch. -/
def exceptMap (f : α → Except ε β) : List α → Except ε (List β)
  | [] => .ok []
  | x :: xs => do
    let y ← f x
    let ys ← exceptMap f xs
    .ok (y :: ys)

/-- A torch tensor over the scalar field `K`: a shape together with its
row-major flat data. -/
structure Tensor (K : Type*) where
  shape : List ℕ
  data : List K

/-- Model of `t.size(-1)`. -/
def Tensor.sizeLast (t : Tensor K) : ℕ := t.shape.getLastD 0

/-- Model of `t.size(-2)`. -/
def Tensor.sizePen (t : Tensor K) : ℕ := t.shape.dropLast.getLastD 0

/-- Model of `t.unsqueeze(-1)`: a trailing axis of size 1 is added; the
row-major data is unchanged. -/
def Tensor.unsqueezeLast (t : Tensor K) : Tensor K := ⟨t.shape ++ [1], t.data⟩

/-- Model of `t.unsqueeze(0)`: a leading axis of size 1 is added; the
row-major data is unchanged. -/
def Tensor.unsqueeze0 (t : Tensor K) : Tensor K := ⟨1 :: t.shape, t.data⟩

/-- Model of `t.unsqueeze(-2)`: an axis of size 1 is inserted before the last
axis; the row-major data is unchanged. -/
def Tensor.unsqueezePen (t : Tensor K) : Tensor K :=
  ⟨t.shape.dropLast ++ [1, t.sizeLast], t.data⟩

/-- Model of `t.view(newShape)`: only the shape changes. -/
def Tensor.view (t : Tensor K) (newShape : List ℕ) : Tensor K := ⟨newShape, t.data⟩

/-- Model of `t.view(-1, a, b)`: torch infers the leading dimension from the
element count. -/
def Tensor.viewNeg1 (t : Tensor K) (a b : ℕ) : Tensor K :=
  ⟨[t.shape.prod / (a * b), a, b], t.data⟩

/-- Model of `t.expand(*newShape)` for a tensor whose axes of size 1 sit
between the true leading axes and the last axis (the pattern produced at
`discrepancies.py` line 90 by unsqueezing `logsignature1` at `-2`): in
row-major order every block of `t.sizeLast` scalars is replicated `m`
contiguous times, where `m` is the product of the expanded middle axes. -/
def Tensor.expandMid (t : Tensor K) (m : ℕ) (newShape : List ℕ) : Tensor K :=
  ⟨newShape,
   ((chunks t.sizeLast t.data).map (fun blk => (List.replicate m blk).flatten)).flatten⟩

/-- Model of `t.expand(*newShape)` for a tensor whose axes of size 1 are all
leading (the pattern produced at `discrepancies.py` line 91 by unsqueezing
`logsignature2` at `0`): in row-major order the whole data block is
replicated `n` times, where `n` is the product of the expanded leading
axes. -/
def Tensor.expandLead (t : Tensor K) (n : ℕ) (newShape : List ℕ) : Tensor K :=
  ⟨newShape, (List.replicate n t.data).flatten⟩

/-- Model of `torch.cat([t1, t2], dim=-1)`.  torch requires all axes other
than the concatenation axis to match exactly, else it raises a shape
mismatch; on success, corresponding last-axis vectors are appended. -/
def catLast (t1 t2 : Tensor K) : Except TErr (Tensor K) :=
  if t1.shape.dropLast = t2.shape.dropLast then
    .ok ⟨t1.shape.dropLast ++ [t1.sizeLast + t2.sizeLast],
         (List.zipWith (fun a b => a ++ b) (chunks t1.sizeLast t1.data)
           (chunks t2.sizeLast t2.data)).flatten⟩
  else .error .shapeMismatch

/-- Model of elementwise `t1 - t2` on same-shape tensors (the only use in
`forward` has both operands already expanded to a common shape). -/
def subT [Sub K] (t1 t2 : Tensor K) : Except TErr (Tensor K) :=
  if t1.shape = t2.shape then
    .ok ⟨t1.shape, List.zipWith (fun a b => a - b) t1.data t2.data⟩
  else .error .shapeMismatch

/-- Dot product of two lists (zip truncates at the shorter list). -/
def dotl [Mul K] [AddCommMonoid K] (a b : List K) : K :=
  (List.zipWith (fun x y => x * y) a b).sum

/-- Application of a weight matrix to a vector, `W @ v`; row `j` of the
result is the dot product of `W`'s row `j` with `v`.  This is what
`torch.nn.Linear(..., bias=False)` computes on its last axis
(`y = x @ W.t()`). -/
def matvec [Mul K] [AddCommMonoid K] (W : List (List K)) (v : List K) : List K :=
  W.map (fun row => dotl row v)

/-- Model of applying `torch.nn.Linear(d, d, bias=False)` with weight `W` to
the last axis of a tensor. -/
def linearApply [Mul K] [AddCommMonoid K] (W : List (List K)) (t : Tensor K) : Tensor K :=
  ⟨t.shape, ((chunks t.sizeLast t.data).map (matvec W)).flatten⟩

/-- The vector p-norm computed by `torch.Tensor.norm(p=p, dim=-1)` for finite
`p`; at `K := ℝ` the `HPow ℝ ℝ ℝ` instance is `Real.rpow`. -/
def pnorm [LinearOrderedField K] [HPow K K K] (p : K) (v : List K) : K :=
  ((v.map (fun x => |x| ^ p)).sum) ^ (1 / p)

/-- Model of `t.norm(p=p, dim=-1)`: the p-norm of every last-axis vector; the
last axis disappears. -/
def normLast [LinearOrderedField K] [HPow K K K] (p : K) (t : Tensor K) : Tensor K :=
  ⟨t.shape.dropLast, (chunks t.sizeLast t.data).map (pnorm p)⟩

/-- The time-channel broadcast loop of `discrepancies.py` lines 69-72:
`for dim in batch_dims: tc = tc.unsqueeze(0).expand(dim, *tc.shape)`.
Each iteration prepends a leading axis of size `dim` and replicates the
data `dim` times. -/
def timeBroadcast (dims : List ℕ) (t : Tensor K) : Tensor K :=
  dims.foldl (fun acc dim => ⟨dim :: acc.shape, (List.replicate dim acc.data).flatten⟩) t

/-- The time-augmentation step of `LogsignatureDiscrepancy.forward`
(`discrepancies.py` lines 67-74) applied to one path: broadcast
`times.unsqueeze(-1)` over the path's batch dimensions with the source's
loop, then `torch.cat([time_channel, path], dim=-1)`. -/
def timeAugment (times : List K) (t : Tensor K) : Except TErr (Tensor K) :=
  catLast (timeBroadcast t.shape.dropLast.dropLast
    (Tensor.unsqueezeLast ⟨[times.length], times⟩)) t

/-- Model of `signatory.logsignature(path, depth)` applied to a `[B, L, C]`
tensor: the external primitive (abstract parameter `logsig`, taking the
channel count, the depth, and one flattened `L*C` path) is applied to every
batch element; its declared output is a fixed-dimension feature vector per
element. -/
def batchLogsig (logsig : ℕ → ℤ → List K → Except TErr (List K)) (depth : ℤ)
    (t : Tensor K) : Except TErr (Tensor K) := do
  let feats ← exceptMap (logsig t.sizeLast depth) (chunks (t.sizePen * t.sizeLast) t.data)
  .ok ⟨[t.shape.headD 0, (feats.headD []).length], feats.flatten⟩

/-- The `LogsignatureDiscrepancy` module of `discrepancies.py`.  `linear`
holds the weight of `torch.nn.Linear(n, n, bias=False)` when `pseudometric`
is set, and is `none` otherwise (`register_parameter('linear', None)`). -/
structure LogsignatureDiscrepancy (K : Type*) where
  in_channels : ℕ
  depth : ℤ
  p : K
  pseudometric : Bool
  linear : Option (List (List K))

/-- Model of `LogsignatureDiscrepancy.__init__`: when `pseudometric` is set,
`signatory.logsignature_channels(in_channels + 1, depth)` (abstract
parameter `lschannels`, which may fail) sizes a bias-free square linear
layer whose randomly initialised entries are modelled by `w`; otherwise no
linear layer is registered. -/
def LogsignatureDiscrepancy.init (lschannels : ℕ → ℤ → Except TErr ℕ)
    (w : ℕ → ℕ → ℕ → K) (in_channels : ℕ) (depth : ℤ) (p : K)
    (pseudometric : Bool) : Except TErr (LogsignatureDiscrepancy K) :=
  if pseudometric then do
    let n ← lschannels (in_channels + 1) depth
    .ok ⟨in_channels, depth, p, pseudometric,
         some ((List.range n).map (fun i => (List.range n).map (w n i)))⟩
  else .ok ⟨in_channels, depth, p, pseudometric, none⟩

/-- Model of `LogsignatureDiscrepancy.forward` (`discrepancies.py` lines
59-97), line by line: time augmentation of both paths, flattening to a
single batch axis, the external logsignature transform, unflattening,
broadcasting by unsqueeze-and-expand, difference, optional learned linear
map, and the final p-norm over the feature axis. -/
def LogsignatureDiscrepancy.forward [LinearOrderedField K] [HPow K K K]
    (self : LogsignatureDiscrepancy K)
    (logsig : ℕ → ℤ → List K → Except TErr (List K))
    (times : List K) (path1 path2 : Tensor K) : Except TErr (Tensor K) := do
  let path1_batch_dims := path1.shape.dropLast.dropLast
  let path2_batch_dims := path2.shape.dropLast.dropLast
  let p1 ← timeAugment times path1
  let p2 ← timeAugment times path2
  let p1 := p1.viewNeg1 p1.sizePen p1.sizeLast
  let p2 := p2.viewNeg1 p2.sizePen p2.sizeLast
  let ls1 ← batchLogsig logsig self.depth p1
  let ls2 ← batchLogsig logsig self.depth p2
  let ls1 := ls1.view (path1_batch_dims ++ [ls1.sizeLast])
  let ls2 := ls2.view (path2_batch_dims ++ [ls2.sizeLast])
  let ls2 := Nat.repeat Tensor.unsqueeze0 path1_batch_dims.length ls2
  let ls1 := Nat.repeat Tensor.unsqueezePen path2_batch_dims.length ls1
  let d1 := ls1.sizeLast
  let ls1e := ls1.expandMid path2_batch_dims.prod
    (path1_batch_dims ++ path2_batch_dims ++ [d1])
  let ls2e := ls2.expandLead path1_batch_dims.prod
    (path1_batch_dims ++ path2_batch_dims ++ [d1])
  let diff ← subT ls1e ls2e
  let diff2 ← if self.pseudometric then
      match self.linear with
      | some W => Except.ok (linearApply W diff)
      | none => Except.error TErr.shapeMismatch
    else Except.ok diff
  .ok (normLast self.p diff2)

/-- Norming the raw, un-reprojected logsignature difference: the same
pipeline as `LogsignatureDiscrepancy.forward` with the learned linear map
skipped entirely.  Spelled out from the spec's description of
pseudometric-off evaluation, to compare with the source's `forward`. -/
def logsigRawDiscrepancy [LinearOrderedField K] [HPow K K K]
    (logsig : ℕ → ℤ → List K → Except TErr (List K))
    (depth : ℤ) (p : K) (times : List K) (path1 path2 : Tensor K) :
    Except TErr (Tensor K) := do
  let path1_batch_dims := path1.shape.dropLast.dropLast
  let path2_batch_dims := path2.shape.dropLast.dropLast
  let p1 ← timeAugment times path1
  let p2 ← timeAugment times path2
  let p1 := p1.viewNeg1 p1.sizePen p1.sizeLast
  let p2 := p2.viewNeg1 p2.sizePen p2.sizeLast
  let ls1 ← batchLogsig logsig depth p1
  let ls2 ← batchLogsig logsig depth p2
  let ls1 := ls1.view (path1_batch_dims ++ [ls1.sizeLast])
  let ls2 := ls2.view (path2_batch_dims ++ [ls2.sizeLast])
  let ls2 := Nat.repeat Tensor.unsqueeze0 path1_batch_dims.length ls2
  let ls1 := Nat.repeat Tensor.unsqueezePen path2_batch_dims.length ls1
  let d1 := ls1.sizeLast
  let ls1e := ls1.expandMid path2_batch_dims.prod
    (path1_batch_dims ++ path2_batch_dims ++ [d1])
  let ls2e := ls2.expandLead path1_batch_dims.prod
    (path1_batch_dims ++ path2_batch_dims ++ [d1])
  let diff ← subT ls1e ls2e
  .ok (normLast p diff)

/-- The identity matrix as a list of rows. -/
def idMatrix (K : Type*) [Zero K] [One K] (n : ℕ) : List (List K) :=
  (List.range n).map (fun i => (List.range n).map (fun j => if i = j then (1 : K) else 0))

/-- Modelled from the spec: the C++ kernel `_impl.l2_discrepancy` is part of
the repository but its source is not included under `src/`; this definition
follows spec section 4.1.  Both paths are treated as piecewise-linear
interpolants over the shared strictly increasing `times`; the result is the
exact integral of the squared Euclidean norm of the (optionally linearly
reprojected) difference.  On each segment the difference interpolates
linearly from `a` to `b` over a width `h` interval, so the integral of its
squared norm has the closed form `h * (a.a + a.b + b.b) / 3` (exact integral
of a quadratic).  `L < 2` fails with `DegeneratePathError`; mismatched
channel counts between `path1`, `path2` and `linear` fail with
`ShapeMismatchError`; an absent `linear` (the empty-tensor argument passed
by `L2Discrepancy` when `pseudometric=False`) means the raw difference is
used. -/
def l2_discrepancy [LinearOrderedField K] (times : List K) (path1 path2 : List (List K))
    (linear : Option (List (List K))) : Except TErr K :=
  if times.length < 2 then .error .degeneratePath
  else if ¬ (path1.length = times.length ∧ path2.length = times.length) then
    .error .shapeMismatch
  else
    let C := (path1.headD []).length
    if ¬ (path1.all (fun r => r.length == C) ∧ path2.all (fun r => r.length == C)) then
      .error .shapeMismatch
    else if ¬ linear.all (fun W => W.length == C && W.all (fun row => row.length == C)) then
      .error .shapeMismatch
    else
      let tr : List K → List K := fun v =>
        match linear with
        | some W => matvec W v
        | none => v
      let diffs := List.zipWith
        (fun r1 r2 => tr (List.zipWith (fun a b => a - b) r1 r2)) path1 path2
      .ok (((List.range (times.length - 1)).map (fun i =>
        let a := diffs.getD i []
        let b := diffs.getD (i + 1) []
        let h := times.getD (i + 1) 0 - times.getD i 0
        h / 3 * (dotl a a + dotl a b + dotl b b))).sum)

/-- Modelled from the spec: the pseudometric-off L2 discrepancy, i.e. the
same integral with the raw (un-reprojected) difference and no linear-shape
checks, spelled out from the spec's words for comparison with
`l2_discrepancy`. -/
def l2_discrepancy_raw [LinearOrderedField K] (times : List K)
    (path1 path2 : List (List K)) : Except TErr K :=
  if times.length < 2 then .error .degeneratePath
  else if ¬ (path1.length = times.length ∧ path2.length = times.length) then
    .error .shapeMismatch
  else
    let C := (path1.headD []).length
    if ¬ (path1.all (fun r => r.length == C) ∧ path2.all (fun r => r.length == C)) then
      .error .shapeMismatch
    else
      let diffs := List.zipWith
        (fun r1 r2 => List.zipWith (fun a b => a - b) r1 r2) path1 path2
      .ok (((List.range (times.length - 1)).map (fun i =>
        let a := diffs.getD i []
        let b := diffs.getD (i + 1) []
        let h := times.getD (i + 1) 0 - times.getD i 0
        h / 3 * (dotl a a + dotl a b + dotl b b))).sum)

/-- The `L2Discrepancy` module of `discrepancies.py`: its `arg` attribute is
a learnable `in_channels × in_channels` matrix when `pseudometric` is set,
and the empty tensor `torch.Tensor()` otherwise, which the kernel treats as
the absence of a linear reprojection (modelled as `none`). -/
structure L2Discrepancy (K : Type*) where
  in_channels : ℕ
  pseudometric : Bool
  arg : Option (List (List K))

/-- Model of `L2Discrepancy.__init__`; `w` models the kaiming-uniform random
initialisation of the learnable matrix. -/
def L2Discrepancy.init (w : ℕ → ℕ → K) (in_channels : ℕ) (pseudometric : Bool) :
    L2Discrepancy K :=
  if pseudometric then
    ⟨in_channels, pseudometric,
     some ((List.range in_channels).map (fun i => (List.range in_channels).map (w i)))⟩
  else ⟨in_channels, pseudometric, none⟩

/-- Model of `L2Discrepancy.forward` (via `CppDiscrepancy.forward`): it calls
the kernel `self.fn(time, path1, path2, self.arg)`. -/
def L2Discrepancy.forward [LinearOrderedField K] (self : L2Discrepancy K)
    (times : List K) (path1 path2 : List (List K)) : Except TErr K :=
  l2_discrepancy times path1 path2 self.arg

/-- Model of `_pad` (`uea.py` lines 15-19): `out = torch.full((maxlen,), channel[-1])`
followed by the slice assignment `out[:len(channel)] = channel`.  Indexing
`channel[-1]` on an empty channel raises, and the slice assignment requires
`len(channel) ≤ maxlen` (otherwise the shapes of the slice and of `channel`
disagree); both failures are modelled as `none`. -/
def _pad (channel : List K) (maxlen : ℕ) : Option (List K) :=
  match channel.getLast? with
  | none => none
  | some last =>
    if channel.length ≤ maxlen then
      some (channel ++ List.replicate (maxlen - channel.length) last)
    else none

/-- The label-collection loop of `get_data` (`uea.py` lines 180-185): an
ordered dictionary maps each label to a fresh counter value on its first
appearance, which is the same as recording the distinct labels in order of
first appearance; a label's dictionary value is its index in this list. -/
def buildTargets [DecidableEq α] (ys : List α) : List α :=
  ys.foldl (fun acc y => if y ∈ acc then acc else acc ++ [y]) []

/-- Model of `all_y = torch.tensor([targets[yi] for yi in all_y])`
(`uea.py` line 186). -/
def relabel [DecidableEq α] (ys : List α) : List ℕ :=
  ys.map (fun y => (buildTargets ys).indexOf y)

/-- Model of `num_classes = counter` (`uea.py` line 210). -/
def numClasses [DecidableEq α] (ys : List α) : ℕ := (buildTargets ys).length

/-- The relabelling step together with the
`assert num_classes >= 2` check of `get_data` (`uea.py` line 213). -/
def labelStage [DecidableEq α] (ys : List α) : Except TErr (List ℕ × ℕ) :=
  if numClasses ys < 2 then .error .assertionError
  else .ok (relabel ys, numClasses ys)

/-- Model of `removed_points` (`uea.py` lines 146-147):
`randperm = torch.randperm(L - 2, generator) + 1` shifts a permutation `perm`
of `{0, ..., L-3}` into `{1, ..., L-2}`, and
`removed_points = randperm[:k].sort().values` keeps its first `k` entries,
sorted. -/
def removedPoints (perm : List ℕ) (k : ℕ) : List ℕ :=
  ((perm.map (fun x => x + 1)).take k).mergeSort (fun a b => a ≤ b)

/-- The forward scan of `get_data` (`uea.py` lines 149-156) computing, for
each removed point, the nearest earlier unremoved index: state
`(prev_removed_point, prev_unremoved_point, acc)`. -/
def prevScan (r0 : ℕ) (rest : List ℕ) : List ℕ :=
  (rest.foldl (fun st r =>
      let pu := if st.1 ≠ r - 1 then r - 1 else st.2.1
      (r, pu, st.2.2 ++ [pu])) (r0, r0 - 1, [r0 - 1])).2.2

/-- The backward scan of `get_data` (`uea.py` lines 158-166) computing, for
each removed point, the nearest later unremoved index (accumulated in
reverse and flipped at the end, as in the source). -/
def nextScan (removed : List ℕ) : List ℕ :=
  match removed.getLast? with
  | none => []
  | some rl =>
    ((removed.dropLast.reverse.foldl (fun st r =>
        let nu := if st.1 ≠ r + 1 then r + 1 else st.2.1
        (r, nu, st.2.2 ++ [nu])) (rl, rl + 1, [rl + 1])).2.2).reverse

/-- The write loop of `get_data` (`uea.py` lines 167-177): for each triple of
a previous unremoved index, a removed index and a next unremoved index, the
stream's value at the removed index is overwritten with the linear
interpolation of the stream's current values at the two unremoved indices
(`zip` stops at the shortest of the three lists, as in Python). -/
def interpWrites [LinearOrderedField K] (times : List K) :
    List K → List ℕ → List ℕ → List ℕ → List K
  | stream, p :: ps, r :: rs, n :: ns =>
    let prev_stream := stream.getD p 0
    let next_stream := stream.getD n 0
    let prev_time := times.getD p 0
    let next_time := times.getD n 0
    let t := times.getD r 0
    let lam := (t - prev_time) / (next_time - prev_time)
    interpWrites times (stream.set r (prev_stream + lam * (next_stream - prev_stream))) ps rs ns
  | stream, _, _, _ => stream

/-- The per-channel missing-value removal-and-interpolation step of
`get_data` (`uea.py` lines 146-177) on one channel's stream.  When the
selection is empty, `removed_points[0]` raises an `IndexError` (modelled as
`none`); otherwise the two scans and the interpolation writes run. -/
def interpolateChannel [LinearOrderedField K] (times stream : List K)
    (removed : List ℕ) : Option (List K) :=
  match removed with
  | [] => none
  | r0 :: rest =>
    some (interpWrites times stream (prevScan r0 rest) (r0 :: rest) (nextScan (r0 :: rest)))

/-- The missing-value step of `get_data` (`uea.py` lines 142-177) over the
whole `[N, L, C]` tensor: for each batch index and each channel index (in
that loop order, so the seeded generator's `randperm` stream is consumed at
call index `b * C + c`), the channel's column is interpolated; each column
only reads and writes its own entries, so the in-place update equals the
columnwise recomputation.  `permF seed i n` models the `i`-th `randperm(n)`
drawn from the generator seeded with `seed`. -/
def missingStep [LinearOrderedField K] (permF : ℕ → ℕ → ℕ → List ℕ)
    (missing_rate : ℚ) (times : List K) (allX : List (List (List K))) :
    Except TErr (List (List (List K))) :=
  let L := (allX.headD []).length
  let C := ((allX.headD []).headD []).length
  let k := (((L : ℚ) * missing_rate).floor).toNat
  exceptMap (fun bi => do
      let cols ← exceptMap (fun ci =>
          let stream := (allX.getD bi []).map (fun row => row.getD ci 0)
          let perm := permF 56789 (bi * C + ci) (L - 2)
          match interpolateChannel times stream (removedPoints perm k) with
          | some s => Except.ok s
          | none => Except.error TErr.indexError) (List.range C)
      .ok cols.transpose)
    (List.range allX.length)

/-- Model of `get_data` (`uea.py` lines 116-215) after the on-disk `.ts`
files have been parsed (`sktime` loading is external): the inputs are the
train/test series as `[N][C][L_i]` nested lists and their label lists.
External collaborators are abstract function parameters:
`randnF seed count` models `torch.randn(..., generator=manual_seed(seed))`
flattened row-major, `permF` the seeded `randperm` stream, `splitF X y
train_size random_state` models `sklearn.model_selection.train_test_split`
and `normaliseF x train` models `common.normalise_data` (whose source is not
under `src/`).  The `ambient` argument models the global default torch
generator: the source never uses it, because every random call passes an
explicitly seeded generator (seeds 45678 and 56789) and the split passes
`random_state=0`.  Dataloader construction only wraps the tensors and is
dropped; the returned tuple carries the tensors themselves. -/
def get_data [LinearOrderedField K] [DecidableEq α]
    (randnF : ℕ → ℕ → List K) (permF : ℕ → ℕ → ℕ → List ℕ)
    (splitF : List (List (List K)) → List ℕ → ℚ → ℕ →
      (List (List (List K)) × List (List (List K)) × List ℕ × List ℕ))
    (normaliseF : List (List (List K)) → List (List (List K)) → List (List (List K)))
    (ambient : ℕ)
    (train_X test_X : List (List (List K))) (train_y test_y : List α)
    (missing_rate : ℚ) (noise_channels : ℕ) :
    Except TErr (List K × List (List (List K)) × List ℕ × List (List (List K)) × List ℕ ×
      List (List (List K)) × List ℕ × ℕ × ℕ) := do
  let amount_train := train_X.length
  let all_X := train_X ++ test_X
  let all_y := train_y ++ test_y
  let maxlen := (all_X.map (fun Xi => (Xi.headD []).length)).foldl max 0
  let stacked ← exceptMap (fun batch => exceptMap (fun ch =>
      match _pad ch maxlen with
      | some o => Except.ok o
      | none => Except.error TErr.indexError) batch) all_X
  let allX1 := stacked.map List.transpose
  let allX2 := if noise_channels ≠ 0 then
      let noise := chunks maxlen
        (chunks noise_channels (randnF 45678 (allX1.length * maxlen * noise_channels)))
      List.zipWith (fun b nb => List.zipWith (fun r nr => r ++ nr) b nb) allX1 noise
    else allX1
  let times := (List.range maxlen).map (fun i => (i : K))
  let allX3 ← if 0 < missing_rate then missingStep permF missing_rate times allX2
    else Except.ok allX2
  let lbl ← labelStage all_y
  let trainval_X := allX3.take amount_train
  let testX := allX3.drop amount_train
  let trainval_y := lbl.1.take amount_train
  let testy := lbl.1.drop amount_train
  let s := splitF trainval_X trainval_y (4 / 5 : ℚ) 0
  let val_X := normaliseF s.2.1 s.1
  let test_Xn := normaliseF testX s.1
  let train_Xn := normaliseF s.1 s.1
  let input_channels := ((train_Xn.headD []).headD []).length
  .ok (times, train_Xn, s.2.2.1, val_X, s.2.2.2, test_Xn, testy, lbl.2, input_channels)

/-! Helper lemmas about `chunks`, `exceptMap`, flattening and broadcasting. -/

theorem chunks_nil (d : ℕ) : chunks d ([] : List α) = [] := by
  rw [chunks]

theorem chunks_cons {d : ℕ} (hd : d ≠ 0) (x : α) (xs : List α) :
    chunks d (x :: xs) = (x :: xs.take (d - 1)) :: chunks d (xs.drop (d - 1)) := by
  rw [chunks]
  simp [hd]

theorem chunks_flatten_uniform {d : ℕ} (hd : d ≠ 0) (ls : List (List α))
    (h : ∀ x ∈ ls, x.length = d) : chunks d ls.flatten = ls := by
  induction ls with
  | nil => simp [chunks_nil]
  | cons a ls ih =>
    have ha : a.length = d := h a (List.mem_cons_self a ls)
    cases a with
    | nil => simp at ha; exact absurd ha.symm hd
    | cons y ys =>
      have hys : ys.length = d - 1 := by
        simp only [List.length_cons] at ha
        omega
      rw [List.flatten_cons, List.cons_append, chunks_cons hd, List.take_left' hys,
        List.drop_left' hys]
      exact congrArg _ (ih (fun x hx => h x (List.mem_cons_of_mem _ hx)))

theorem length_flatten_uniform {d : ℕ} (ls : List (List α))
    (h : ∀ x ∈ ls, x.length = d) : ls.flatten.length = ls.length * d := by
  induction ls with
  | nil => simp
  | cons a ls ih =>
    have ha : a.length = d := h a (List.mem_cons_self a ls)
    have := ih (fun x hx => h x (List.mem_cons_of_mem _ hx))
    simp only [List.flatten_cons, List.length_append, this, ha, List.length_cons]
    ring

theorem flatten_map_singleton (l : List α) : (l.map (fun a => [a])).flatten = l := by
  induction l with
  | nil => rfl
  | cons x xs ih => simp [ih]

theorem flatten_replicate_flatten (a b : ℕ) (l : List α) :
    (List.replicate a ((List.replicate b l).flatten)).flatten
      = (List.replicate (a * b) l).flatten := by
  induction a with
  | zero => simp
  | succ a ih =>
    rw [List.replicate_succ, List.flatten_cons, ih, ← List.flatten_append,
      ← List.replicate_add]
    congr 2
    ring

theorem zipWith_flatten_flatten (f : α → β → γ) {as : List (List α)} {bs : List (List β)}
    (h : List.Forall₂ (fun (a : List α) (b : List β) => a.length = b.length) as bs) :
    List.zipWith f as.flatten bs.flatten = (List.zipWith (List.zipWith f) as bs).flatten := by
  induction h with
  | nil => simp
  | cons hab _ ih =>
    rw [List.flatten_cons, List.flatten_cons, List.zipWith_append _ _ _ _ _ hab,
      List.zipWith_cons_cons, List.flatten_cons, ih]

theorem forall₂_length_uniform {d : ℕ} (as : List (List α)) (bs : List (List β))
    (hlen : as.length = bs.length) (ha : ∀ a ∈ as, a.length = d)
    (hb : ∀ b ∈ bs, b.length = d) :
    List.Forall₂ (fun (a : List α) (b : List β) => a.length = b.length) as bs := by
  induction as generalizing bs with
  | nil =>
    cases bs with
    | nil => constructor
    | cons b bs => simp at hlen
  | cons a as ih =>
    cases bs with
    | nil => simp at hlen
    | cons b bs =>
      constructor
      · rw [ha a (List.mem_cons_self a as), hb b (List.mem_cons_self b bs)]
      · exact ih bs (by simpa using hlen) (fun x hx => ha x (List.mem_cons_of_mem _ hx))
          (fun x hx => hb x (List.mem_cons_of_mem _ hx))

theorem getElem?_flatten_block {m : ℕ} {ls : List (List α)}
    (hu : ∀ x ∈ ls, x.length = m) {i j : ℕ} {x : List α}
    (hi : ls[i]? = some x) (hj : j < m) :
    ls.flatten[i * m + j]? = x[j]? := by
  induction ls generalizing i with
  | nil => simp at hi
  | cons a ls ih =>
    cases i with
    | zero =>
      simp only [List.getElem?_cons_zero, Option.some.injEq] at hi
      subst hi
      rw [List.flatten_cons, Nat.zero_mul, Nat.zero_add,
        List.getElem?_append_left (by rw [hu a (List.mem_cons_self a ls)]; exact hj)]
    | succ i =>
      simp only [List.getElem?_cons_succ] at hi
      have ha : a.length = m := hu a (List.mem_cons_self a ls)
      rw [List.flatten_cons, List.getElem?_append_right (by rw [ha]; nlinarith [Nat.le_add_right ((i + 1) * m) j])]
      have harith : (i + 1) * m + j - a.length = i * m + j := by
        rw [ha]; ring_nf; omega
      rw [harith]
      exact ih (fun y hy => hu y (List.mem_cons_of_mem _ hy)) hi

theorem exceptMap_ok_forall {f : α → Except ε β} {P : β → Prop} (l : List α)
    (h : ∀ x ∈ l, ∃ v, f x = .ok v ∧ P v) :
    ∃ vs, exceptMap f l = .ok vs ∧ vs.length = l.length ∧ ∀ v ∈ vs, P v := by
  induction l with
  | nil => exact ⟨[], rfl, rfl, by simp⟩
  | cons x xs ih =>
    obtain ⟨v, hv, hPv⟩ := h x (List.mem_cons_self x xs)
    obtain ⟨vs, hvs, hlen, hP⟩ := ih (fun y hy => h y (List.mem_cons_of_mem _ hy))
    refine ⟨v :: vs, ?_, by simp [hlen], ?_⟩
    · simp only [exceptMap, hv, hvs]
      rfl
    · intro u hu
      rcases List.mem_cons.mp hu with rfl | hu
      · exact hPv
      · exact hP u hu

theorem exceptMap_error_of_head {f : α → Except ε β} {x : α} {xs : List α} {e : ε}
    (hx : f x = .error e) : exceptMap f (x :: xs) = .error e := by
  simp only [exceptMap, hx]
  rfl

theorem timeBroadcast_shape : ∀ (dims : List ℕ) (t : Tensor K),
    (timeBroadcast dims t).shape = dims.reverse ++ t.shape
  | [], t => rfl
  | d :: ds, t => by
    rw [show timeBroadcast (d :: ds) t
        = timeBroadcast ds ⟨d :: t.shape, (List.replicate d t.data).flatten⟩ from rfl,
      timeBroadcast_shape ds]
    simp

theorem timeBroadcast_data : ∀ (dims : List ℕ) (t : Tensor K),
    (timeBroadcast dims t).data = (List.replicate dims.prod t.data).flatten
  | [], t => by simp [timeBroadcast]
  | d :: ds, t => by
    rw [show timeBroadcast (d :: ds) t
        = timeBroadcast ds ⟨d :: t.shape, (List.replicate d t.data).flatten⟩ from rfl,
      timeBroadcast_data ds]
    show (List.replicate ds.prod ((List.replicate d t.data).flatten)).flatten = _
    rw [flatten_replicate_flatten, List.prod_cons, Nat.mul_comm]

theorem map_getD_range (l : List α) (d : α) :
    (List.range l.length).map (fun i => l.getD i d) = l := by
  induction l with
  | nil => rfl
  | cons x xs ih =>
    rw [List.length_cons, List.range_succ_eq_map, List.map_cons, List.map_map]
    simp only [Function.comp_def, List.getD_cons_zero, List.getD_cons_succ]
    rw [ih]

/-! Helper lemmas about dot products, matrix-vector application and norms. -/

theorem dotl_cons [LinearOrderedField K] (x y : K) (xs ys : List K) :
    dotl (x :: xs) (y :: ys) = x * y + dotl xs ys := by
  simp [dotl]

theorem dotl_zero_of_right [LinearOrderedField K] (a : List K) :
    ∀ (b : List K), (∀ y ∈ b, y = 0) → dotl a b = 0 := by
  induction a with
  | nil => intro b _; simp [dotl]
  | cons x xs ih =>
    intro b hb
    cases b with
    | nil => simp [dotl]
    | cons y ys =>
      rw [dotl_cons, hb y (List.mem_cons_self y ys),
        ih ys (fun z hz => hb z (List.mem_cons_of_mem _ hz))]
      ring

theorem dotl_zero_of_left [LinearOrderedField K] (b : List K) :
    ∀ (a : List K), (∀ y ∈ a, y = 0) → dotl a b = 0 := by
  induction b with
  | nil => intro a _; simp [dotl]
  | cons y ys ih =>
    intro a ha
    cases a with
    | nil => simp [dotl]
    | cons x xs =>
      rw [dotl_cons, ha x (List.mem_cons_self x xs),
        ih xs (fun z hz => ha z (List.mem_cons_of_mem _ hz))]
      ring

theorem matvec_length [LinearOrderedField K] (W : List (List K)) (v : List K) :
    (matvec W v).length = W.length := by
  simp [matvec]

theorem matvec_zero_mem [LinearOrderedField K] (W : List (List K)) (v : List K)
    (hv : ∀ y ∈ v, y = 0) : ∀ z ∈ matvec W v, z = 0 := by
  intro z hz
  simp only [matvec, List.mem_map] at hz
  obtain ⟨row, _, rfl⟩ := hz
  exact dotl_zero_of_right row v hv

theorem zipWith_sub_self [LinearOrderedField K] (v : List K) :
    List.zipWith (fun a b => a - b) v v = List.replicate v.length 0 := by
  induction v with
  | nil => rfl
  | cons x xs ih => simp [List.replicate_succ, ih]

theorem dotl_delta [LinearOrderedField K] (v : List K) (i : ℕ) :
    dotl ((List.range v.length).map (fun j => if i = j then (1 : K) else 0)) v
      = v.getD i 0 := by
  induction v generalizing i with
  | nil => simp [dotl]
  | cons x xs ih =>
    rw [List.length_cons, List.range_succ_eq_map, List.map_cons, List.map_map]
    cases i with
    | zero =>
      rw [if_pos rfl, dotl_cons, dotl_zero_of_left xs _ ?_]
      · simp
      · intro z hz
        simp only [List.mem_map, Function.comp_def] at hz
        obtain ⟨j, _, rfl⟩ := hz
        simp [Nat.succ_ne_zero]
    | succ i =>
      have hfun : ((fun j => if i + 1 = j then (1 : K) else 0) ∘ Nat.succ)
          = (fun j => if i = j then (1 : K) else 0) := by
        funext j
        simp [Function.comp_def, Nat.succ_inj]
      rw [hfun, if_neg (Nat.succ_ne_zero i), dotl_cons, ih]
      simp

theorem matvec_idMatrix [LinearOrderedField K] (v : List K) :
    matvec (idMatrix K v.length) v = v := by
  simp only [matvec, idMatrix, List.map_map]
  have : ((fun row => dotl row v) ∘ fun i =>
      (List.range v.length).map fun j => if i = j then (1 : K) else 0)
      = fun i => v.getD i 0 := by
    funext i
    exact dotl_delta v i
  rw [this, map_getD_range]

theorem pnorm_zero_real {p : ℝ} (hp : 1 ≤ p) (v : List ℝ) (hv : ∀ x ∈ v, x = 0) :
    pnorm p v = 0 := by
  have hp0 : p ≠ 0 := by
    intro h
    rw [h] at hp
    exact absurd hp (by norm_num)
  unfold pnorm
  have hsum : (v.map fun x => |x| ^ p).sum = 0 := by
    apply List.sum_eq_zero
    intro y hy
    simp only [List.mem_map] at hy
    obtain ⟨x, hx, rfl⟩ := hy
    rw [hv x hx, abs_zero, Real.zero_rpow hp0]
  rw [hsum, Real.zero_rpow (one_div_ne_zero hp0)]

/-! Helper lemmas about the label relabelling loop of `get_data`. -/

theorem foldl_buildTargets_mem [DecidableEq α] :
    ∀ (ys acc : List α) (x : α),
      (x ∈ ys.foldl (fun acc y => if y ∈ acc then acc else acc ++ [y]) acc) ↔
        x ∈ acc ∨ x ∈ ys
  | [], acc, x => by simp
  | y :: ys, acc, x => by
    rw [List.foldl_cons, foldl_buildTargets_mem ys]
    by_cases hy : y ∈ acc
    · rw [if_pos hy]
      constructor
      · rintro (h | h)
        · exact Or.inl h
        · exact Or.inr (List.mem_cons_of_mem _ h)
      · rintro (h | h)
        · exact Or.inl h
        · rcases List.mem_cons.mp h with rfl | h'
          · exact Or.inl hy
          · exact Or.inr h'
    · rw [if_neg hy]
      constructor
      · rintro (h | h)
        · rcases List.mem_append.mp h with ha | hy'
          · exact Or.inl ha
          · rcases List.mem_singleton.mp hy' with rfl
            exact Or.inr (List.mem_cons_self x ys)
        · exact Or.inr (List.mem_cons_of_mem _ h)
      · rintro (h | h)
        · exact Or.inl (List.mem_append.mpr (Or.inl h))
        · rcases List.mem_cons.mp h with rfl | h'
          · exact Or.inl (List.mem_append.mpr (Or.inr (List.mem_singleton.mpr rfl)))
          · exact Or.inr h'

theorem foldl_buildTargets_nodup [DecidableEq α] :
    ∀ (ys acc : List α), acc.Nodup →
      (ys.foldl (fun acc y => if y ∈ acc then acc else acc ++ [y]) acc).Nodup
  | [], _, h => h
  | y :: ys, acc, h => by
    rw [List.foldl_cons]
    by_cases hy : y ∈ acc
    · rw [if_pos hy]
      exact foldl_buildTargets_nodup ys acc h
    · rw [if_neg hy]
      refine foldl_buildTargets_nodup ys _ ?_
      rw [List.nodup_append]
      exact ⟨h, List.nodup_singleton y, by simpa using fun hmem => hy hmem⟩

theorem buildTargets_mem_iff [DecidableEq α] (ys : List α) (x : α) :
    x ∈ buildTargets ys ↔ x ∈ ys := by
  unfold buildTargets
  rw [foldl_buildTargets_mem]
  simp

theorem buildTargets_nodup [DecidableEq α] (ys : List α) : (buildTargets ys).Nodup :=
  foldl_buildTargets_nodup ys [] List.nodup_nil

theorem buildTargets_concat [DecidableEq α] (zs : List α) (y : α) :
    buildTargets (zs ++ [y]) =
      if y ∈ buildTargets zs then buildTargets zs else buildTargets zs ++ [y] := by
  unfold buildTargets
  rw [List.foldl_append]
  rfl

theorem buildTargets_pairwise_firstIdx [DecidableEq α] (ys : List α) :
    (buildTargets ys).Pairwise (fun a b => ys.indexOf a < ys.indexOf b) := by
  induction ys using List.reverseRecOn with
  | nil => simp [buildTargets]
  | append_singleton zs y ih =>
    rw [buildTargets_concat]
    by_cases hy : y ∈ buildTargets zs
    · rw [if_pos hy]
      refine ih.imp_of_mem ?_
      intro a b ha hb hab
      have ha' : a ∈ zs := (buildTargets_mem_iff zs a).mp ha
      have hb' : b ∈ zs := (buildTargets_mem_iff zs b).mp hb
      rw [List.indexOf_append_of_mem ha', List.indexOf_append_of_mem hb']
      exact hab
    · rw [if_neg hy]
      rw [List.pairwise_append]
      refine ⟨ih.imp_of_mem ?_, List.pairwise_singleton _ y, ?_⟩
      · intro a b ha hb hab
        have ha' : a ∈ zs := (buildTargets_mem_iff zs a).mp ha
        have hb' : b ∈ zs := (buildTargets_mem_iff zs b).mp hb
        rw [List.indexOf_append_of_mem ha', List.indexOf_append_of_mem hb']
        exact hab
      · intro a ha b hb
        rw [List.mem_singleton] at hb
        subst hb
        have ha' : a ∈ zs := (buildTargets_mem_iff zs a).mp ha
        have hy' : b ∉ zs := fun hmem => hy ((buildTargets_mem_iff zs b).mpr hmem)
        rw [List.indexOf_append_of_mem ha', List.indexOf_append_of_not_mem hy']
        have : zs.indexOf a < zs.length := List.indexOf_lt_length.mpr ha'
        simp only [List.indexOf_cons_self, Nat.add_zero]
        omega

theorem numClasses_eq_card [DecidableEq α] (ys : List α) :
    numClasses ys = ys.toFinset.card := by
  unfold numClasses
  rw [← List.toFinset_card_of_nodup (buildTargets_nodup ys)]
  congr 1
  ext x
  simp [buildTargets_mem_iff]

/-! Helper lemmas about the missing-value interpolation step. -/

theorem interpWrites_preserve [LinearOrderedField K] (times : List K) :
    ∀ (ps rs ns : List ℕ) (stream : List K),
      (∀ r ∈ rs, 0 < r ∧ r + 1 < stream.length) →
      (interpWrites times stream ps rs ns).length = stream.length ∧
      (interpWrites times stream ps rs ns)[0]? = stream[0]? ∧
      (interpWrites times stream ps rs ns)[stream.length - 1]?
        = stream[stream.length - 1]? := by
  intro ps
  induction ps with
  | nil =>
    intro rs ns stream _
    exact ⟨rfl, rfl, rfl⟩
  | cons p ps ih =>
    intro rs ns stream hrs
    cases rs with
    | nil => exact ⟨rfl, rfl, rfl⟩
    | cons r rs' =>
      cases ns with
      | nil => exact ⟨rfl, rfl, rfl⟩
      | cons n ns' =>
        rw [interpWrites]
        obtain ⟨hr0, hrL⟩ := hrs r (List.mem_cons_self r rs')
        set stream' := stream.set r
          (stream.getD p 0 + (times.getD r 0 - times.getD p 0) /
            (times.getD n 0 - times.getD p 0) * (stream.getD n 0 - stream.getD p 0)) with hs'
        have hlen : stream'.length = stream.length := List.length_set stream _ _
        have hrec := ih rs' ns' stream' (by
          intro r' hr'
          rw [hlen]
          exact hrs r' (List.mem_cons_of_mem _ hr'))
        obtain ⟨h1, h2, h3⟩ := hrec
        refine ⟨by rw [h1, hlen], ?_, ?_⟩
        · rw [h2, hs', List.getElem?_set_ne (by omega)]
        · rw [hlen] at h3
          rw [h3, hs', List.getElem?_set_ne (by omega)]

theorem removedPoints_bounds {perm : List ℕ} {k L : ℕ}
    (hperm : ∀ x ∈ perm, x < L - 2) :
    ∀ r ∈ removedPoints perm k, 1 ≤ r ∧ r ≤ L - 2 := by
  intro r hr
  unfold removedPoints at hr
  rw [List.mem_mergeSort] at hr
  have hr' : r ∈ perm.map (fun x => x + 1) := List.mem_of_mem_take hr
  rw [List.mem_map] at hr'
  obtain ⟨x, hx, rfl⟩ := hr'
  have := hperm x hx
  omega

/-! Helper lemmas for stepping through the `forward` pipeline. -/

theorem except_bind_ok (a : α) (f : α → Except ε β) : (Except.ok a >>= f) = f a := rfl

theorem except_bind_error (e : ε) (f : α → Except ε β) :
    ((Except.error e : Except ε α) >>= f) = .error e := rfl

theorem dropLast_pair (S : List ℕ) (a b : ℕ) : (S ++ [a, b]).dropLast = S ++ [a] := by
  rw [show S ++ [a, b] = (S ++ [a]) ++ [b] by simp, List.dropLast_concat]

theorem getLastD_pair (S : List ℕ) (a b : ℕ) : (S ++ [a, b]).getLastD 0 = b := by
  rw [show S ++ [a, b] = (S ++ [a]) ++ [b] by simp]
  exact List.getLastD_concat _ _ _

theorem dropLast_dropLast_pair (S : List ℕ) (a b : ℕ) :
    (S ++ [a, b]).dropLast.dropLast = S := by
  rw [dropLast_pair, List.dropLast_concat]

theorem repeat_unsqueezePen_data (k : ℕ) (t : Tensor K) :
    (Nat.repeat Tensor.unsqueezePen k t).data = t.data := by
  induction k with
  | zero => rfl
  | succ k ih => rw [Nat.repeat, Tensor.unsqueezePen, ih]

theorem repeat_unsqueezePen_sizeLast (k : ℕ) (t : Tensor K) :
    (Nat.repeat Tensor.unsqueezePen k t).sizeLast = t.sizeLast := by
  induction k with
  | zero => rfl
  | succ k ih =>
    rw [Nat.repeat]
    show ((Nat.repeat Tensor.unsqueezePen k t).unsqueezePen).sizeLast = _
    rw [← ih]
    show ((Nat.repeat Tensor.unsqueezePen k t).shape.dropLast
      ++ [1, (Nat.repeat Tensor.unsqueezePen k t).sizeLast]).getLastD 0 = _
    rw [getLastD_pair]

theorem repeat_unsqueeze0_data (k : ℕ) (t : Tensor K) :
    (Nat.repeat Tensor.unsqueeze0 k t).data = t.data := by
  induction k with
  | zero => rfl
  | succ k ih => rw [Nat.repeat, Tensor.unsqueeze0, ih]

theorem timeAugment_ok [LinearOrderedField K] (times : List K) (S : List ℕ) (L C : ℕ)
    (t : Tensor K) (hS : S.reverse = S) (hshape : t.shape = S ++ [L, C])
    (ht : times.length = L) :
    timeAugment times t = .ok ⟨S ++ [L, 1 + C],
      (List.zipWith (fun a b => a ++ b)
        (chunks 1 ((List.replicate S.prod times).flatten))
        (chunks C t.data)).flatten⟩ := by
  unfold timeAugment catLast
  have hdd : t.shape.dropLast.dropLast = S := by rw [hshape, dropLast_dropLast_pair]
  have hbase : (Tensor.unsqueezeLast ⟨[times.length], times⟩ : Tensor K)
      = ⟨[times.length, 1], times⟩ := rfl
  have htc_shape : (timeBroadcast t.shape.dropLast.dropLast
      (Tensor.unsqueezeLast ⟨[times.length], times⟩) : Tensor K).shape
      = S ++ [L, 1] := by
    rw [hbase, timeBroadcast_shape, hdd, hS, ht]
  have htc_data : (timeBroadcast t.shape.dropLast.dropLast
      (Tensor.unsqueezeLast ⟨[times.length], times⟩) : Tensor K).data
      = (List.replicate S.prod times).flatten := by
    rw [hbase, timeBroadcast_data, hdd]
  have hcond : (timeBroadcast t.shape.dropLast.dropLast
      (Tensor.unsqueezeLast ⟨[times.length], times⟩) : Tensor K).shape.dropLast
      = t.shape.dropLast := by
    rw [htc_shape, hshape, dropLast_pair, dropLast_pair]
  rw [if_pos hcond]
  congr 1
  have hsl1 : (timeBroadcast t.shape.dropLast.dropLast
      (Tensor.unsqueezeLast ⟨[times.length], times⟩) : Tensor K).sizeLast = 1 := by
    rw [Tensor.sizeLast, htc_shape, getLastD_pair]
  have hsl2 : t.sizeLast = C := by rw [Tensor.sizeLast, hshape, getLastD_pair]
  rw [Tensor.mk.injEq]
  constructor
  · rw [hsl1, hsl2, hcond, hshape, dropLast_pair, List.append_assoc]
    rfl
  · rw [hsl1, hsl2, htc_data]

theorem batchLogsig_ok [LinearOrderedField K]
    (logsig : ℕ → ℤ → List K → Except TErr (List K)) (depth : ℤ) (t : Tensor K)
    (vs : List (List K))
    (hmap : exceptMap (logsig t.sizeLast depth) (chunks (t.sizePen * t.sizeLast) t.data)
      = .ok vs) :
    batchLogsig logsig depth t
      = .ok ⟨[t.shape.headD 0, (vs.headD []).length], vs.flatten⟩ := by
  unfold batchLogsig
  rw [hmap]
  rfl

theorem batchLogsig_error [LinearOrderedField K]
    (logsig : ℕ → ℤ → List K → Except TErr (List K)) (depth : ℤ) (t : Tensor K)
    (e : TErr) (hne : chunks (t.sizePen * t.sizeLast) t.data ≠ [])
    (hlog : ∀ c x, logsig c depth x = .error e) :
    batchLogsig logsig depth t = .error e := by
  unfold batchLogsig
  obtain ⟨c, cs, hc⟩ : ∃ c cs, chunks (t.sizePen * t.sizeLast) t.data = c :: cs := by
    cases h : chunks (t.sizePen * t.sizeLast) t.data with
    | nil => exact absurd h hne
    | cons c cs => exact ⟨c, cs, rfl⟩
  rw [hc, exceptMap_error_of_head (hlog _ _)]
  rfl

theorem chunks_ne_nil {d : ℕ} (hd : d ≠ 0) {l : List α} (hl : l ≠ []) :
    chunks d l ≠ [] := by
  cases l with
  | nil => exact absurd rfl hl
  | cons x xs => rw [chunks_cons hd]; exact List.cons_ne_nil _ _

theorem flatten_replicate_ne_nil {n : ℕ} {l : List α} (hn : n ≠ 0) (hl : l ≠ []) :
    (List.replicate n l).flatten ≠ [] := by
  cases n with
  | zero => exact absurd rfl hn
  | succ n =>
    rw [List.replicate_succ, List.flatten_cons]
    intro h
    rw [List.append_eq_nil] at h
    exact hl h.1

theorem catData_ne_nil (tcd dp : List α) {C : ℕ} (htc : tcd ≠ []) (hdp : dp ≠ [])
    (hC : C ≠ 0) :
    (List.zipWith (fun a b => a ++ b) (chunks 1 tcd) (chunks C dp)).flatten ≠ [] := by
  cases tcd with
  | nil => exact absurd rfl htc
  | cons t ts =>
    cases dp with
    | nil => exact absurd rfl hdp
    | cons y ys =>
      rw [chunks_cons one_ne_zero, chunks_cons hC, List.zipWith_cons_cons, List.flatten_cons]
      simp

theorem zipWith_replicate_left (f : α → β → γ) (s : α) :
    ∀ (bs : List β) (n : ℕ), n = bs.length →
      List.zipWith f (List.replicate n s) bs = bs.map (f s)
  | [], n, hn => by subst hn; rfl
  | b :: bs, n, hn => by
    subst hn
    rw [List.length_cons, List.replicate_succ, List.zipWith_cons_cons, List.map_cons,
      zipWith_replicate_left f s bs bs.length rfl]

theorem zipWith_append_uniform_length {da db : ℕ} :
    ∀ (a b : List (List α)), (∀ x ∈ a, x.length = da) → (∀ x ∈ b, x.length = db) →
      ∀ x ∈ List.zipWith (fun u v => u ++ v) a b, x.length = da + db
  | [], _, _, _ => by simp
  | _ :: _, [], _, _ => by simp
  | u :: a, v :: b, ha, hb => by
    rw [List.zipWith_cons_cons]
    intro x hx
    rcases List.mem_cons.mp hx with rfl | hx'
    · rw [List.length_append, ha u (List.mem_cons_self u a), hb v (List.mem_cons_self v b)]
    · exact zipWith_append_uniform_length a b
        (fun y hy => ha y (List.mem_cons_of_mem _ hy))
        (fun y hy => hb y (List.mem_cons_of_mem _ hy)) x hx'

theorem chunks_headD_flatten {d : ℕ} (vs : List (List α))
    (hu : ∀ v ∈ vs, v.length = d) (hd : d ≠ 0) :
    chunks ((vs.headD []).length) vs.flatten = vs := by
  cases vs with
  | nil => simp [chunks_nil]
  | cons v vs' =>
    rw [List.headD_cons, hu v (List.mem_cons_self v vs')]
    exact chunks_flatten_uniform hd _ hu

theorem zipWith_congr_mem (f g : α → β → γ) :
    ∀ (l1 : List α) (l2 : List β), (∀ a ∈ l1, ∀ b ∈ l2, f a b = g a b) →
      List.zipWith f l1 l2 = List.zipWith g l1 l2
  | [], _, _ => by simp
  | _ :: _, [], _ => by simp
  | a :: l1, b :: l2, h => by
    rw [List.zipWith_cons_cons, List.zipWith_cons_cons,
      h a (List.mem_cons_self a l1) b (List.mem_cons_self b l2),
      zipWith_congr_mem f g l1 l2
        (fun x hx y hy => h x (List.mem_cons_of_mem _ hx) y (List.mem_cons_of_mem _ hy))]

/-! Helper lemma for `_pad`. -/

theorem pad_spec [LinearOrderedField K] (channel : List K) (maxlen : ℕ)
    (hne : channel ≠ []) (hlen : channel.length ≤ maxlen) :
    ∃ r last, _pad channel maxlen = some r ∧ channel.getLast? = some last ∧
      r.length = maxlen ∧ r.take channel.length = channel ∧
      r.drop channel.length = List.replicate (maxlen - channel.length) last := by
  have hlast : channel.getLast? = some (channel.getLast hne) :=
    List.getLast?_eq_getLast channel hne
  refine ⟨channel ++ List.replicate (maxlen - channel.length) (channel.getLast hne),
    channel.getLast hne, ?_, hlast, ?_, ?_, ?_⟩
  · unfold _pad
    rw [hlast]
    exact if_pos hlen
  · rw [List.length_append, List.length_replicate]
    omega
  · exact List.take_left channel _
  · exact List.drop_left channel _

/-- C10: for every non-empty channel of length `n` and every `maxlen ≥ n`,
`_pad` returns a sequence of length exactly `maxlen` whose first `n` entries
equal the channel and whose remaining entries all equal the channel's last
value; consequently every channel padded by `get_data`'s stacking step (all
of which satisfy the hypotheses, `maxlen` being the maximum length) comes
out with length exactly `maxlen`. -/
theorem c10_pad_pads_with_last_value [LinearOrderedField K] (channel : List K)
    (maxlen : ℕ) (hne : channel ≠ []) (hlen : channel.length ≤ maxlen) :
    (∃ r last, _pad channel maxlen = some r ∧ channel.getLast? = some last ∧
      r.length = maxlen ∧ r.take channel.length = channel ∧
      r.drop channel.length = List.replicate (maxlen - channel.length) last) ∧
    ∀ (chans : List (List K)), (∀ ch ∈ chans, ch ≠ [] ∧ ch.length ≤ maxlen) →
      ∀ o ∈ chans.map (fun ch => _pad ch maxlen), ∃ s, o = some s ∧ s.length = maxlen := by
  refine ⟨pad_spec channel maxlen hne hlen, ?_⟩
  intro chans hch o ho
  rw [List.mem_map] at ho
  obtain ⟨ch, hchmem, rfl⟩ := ho
  obtain ⟨hne', hlen'⟩ := hch ch hchmem
  obtain ⟨r, last, hr, _, hrlen, _, _⟩ := pad_spec ch maxlen hne' hlen'
  exact ⟨r, hr, hrlen⟩

/-- Witness for C10 at a concrete input. -/
theorem c10_pad_pads_with_last_value_witness :
    ((1 : ℚ) :: [2]) ≠ [] ∧ ((1 : ℚ) :: [2]).length ≤ 4 ∧
    ((∃ r last, _pad ((1 : ℚ) :: [2]) 4 = some r ∧
        ((1 : ℚ) :: [2]).getLast? = some last ∧
        r.length = 4 ∧ r.take ((1 : ℚ) :: [2]).length = (1 : ℚ) :: [2] ∧
        r.drop ((1 : ℚ) :: [2]).length
          = List.replicate (4 - ((1 : ℚ) :: [2]).length) last) ∧
      ∀ (chans : List (List ℚ)), (∀ ch ∈ chans, ch ≠ [] ∧ ch.length ≤ 4) →
        ∀ o ∈ chans.map (fun ch => _pad ch 4), ∃ s, o = some s ∧ s.length = 4) :=
  ⟨by simp, by decide,
   c10_pad_pads_with_last_value ((1 : ℚ) :: [2]) 4 (by simp) (by decide)⟩

/-- C6: calling the L2 discrepancy kernel on paths whose shared length
dimension `L` is less than 2 (in particular a path of length 1) yields
`DegeneratePathError`, for every times vector of that length, every pair of
paths and every optional linear argument. -/
theorem c6_l2_degenerate_path [LinearOrderedField K] (times : List K)
    (path1 path2 : List (List K)) (linear : Option (List (List K))) (L : ℕ)
    (ht : times.length = L) (h1 : path1.length = L) (h2 : path2.length = L)
    (hL : L < 2) :
    l2_discrepancy times path1 path2 linear = .error .degeneratePath := by
  unfold l2_discrepancy
  rw [if_pos (by omega)]

/-- Witness for C6 at a concrete length-1 input. -/
theorem c6_l2_degenerate_path_witness :
    l2_discrepancy [(0 : ℚ)] [[5]] [[6]] none = .error .degeneratePath :=
  c6_l2_degenerate_path [(0 : ℚ)] [[5]] [[6]] none 1 rfl rfl rfl (by omega)

/-- C9: `get_data` is deterministic — its output does not depend on the
ambient global generator state, because the noise draw seeds its own
generator with 45678, the missing-point selection seeds its own generator
with 56789, and the train/validation split passes `random_state=0`; all
other stages are pure functions of the inputs. -/
theorem c9_get_data_deterministic [LinearOrderedField K] [DecidableEq α]
    (randnF : ℕ → ℕ → List K) (permF : ℕ → ℕ → ℕ → List ℕ)
    (splitF : List (List (List K)) → List ℕ → ℚ → ℕ →
      (List (List (List K)) × List (List (List K)) × List ℕ × List ℕ))
    (normaliseF : List (List (List K)) → List (List (List K)) → List (List (List K)))
    (ambient1 ambient2 : ℕ)
    (train_X test_X : List (List (List K))) (train_y test_y : List α)
    (missing_rate : ℚ) (noise_channels : ℕ) :
    get_data randnF permF splitF normaliseF ambient1 train_X test_X train_y test_y
        missing_rate noise_channels
      = get_data randnF permF splitF normaliseF ambient2 train_X test_X train_y test_y
        missing_rate noise_channels := rfl

/-- C7: the relabelled labels form a 0-based contiguous range (an entry `k`
occurs iff `k < num_classes`), `num_classes` is the number of distinct
original labels, the `assert num_classes >= 2` fails exactly when there are
fewer than two distinct labels, and the label dictionary lists labels in
order of first appearance (its entries are strictly sorted by the index of
their first occurrence, and each label is mapped to its position in it). -/
theorem c7_labels_contiguous [DecidableEq α] (ys : List α) :
    (∀ k, k ∈ relabel ys ↔ k < numClasses ys) ∧
    numClasses ys = ys.toFinset.card ∧
    (labelStage ys = .error .assertionError ↔ ys.toFinset.card < 2) ∧
    (buildTargets ys).Pairwise (fun a b => ys.indexOf a < ys.indexOf b) := by
  refine ⟨?_, numClasses_eq_card ys, ?_, buildTargets_pairwise_firstIdx ys⟩
  · intro k
    constructor
    · intro hk
      rw [relabel, List.mem_map] at hk
      obtain ⟨y, hy, rfl⟩ := hk
      exact List.indexOf_lt_length.mpr ((buildTargets_mem_iff ys y).mpr hy)
    · intro hk
      rw [relabel, List.mem_map]
      have hk' : k < (buildTargets ys).length := hk
      refine ⟨(buildTargets ys)[k], ?_, ?_⟩
      · exact (buildTargets_mem_iff ys _).mp (List.getElem_mem hk')
      · exact List.indexOf_getElem (buildTargets_nodup ys) k hk'
  · unfold labelStage
    rw [numClasses_eq_card]
    split_ifs with h
    · simp [h]
    · simp [h]

/-- C8: every removed index produced by the missing-value step lies in
`{1, ..., L-2}` (the `randperm(L-2) + 1` construction keeps the start and
the end), so the removal-and-interpolation step leaves the first and last
time samples of the channel unchanged (and preserves the stream's
length). -/
theorem c8_missing_step_preserves_endpoints [LinearOrderedField K]
    (times stream : List K) (perm : List ℕ) (k L : ℕ)
    (hlen : stream.length = L)
    (hperm : ∀ x ∈ perm, x < L - 2)
    (hne : removedPoints perm k ≠ []) :
    ∃ out, interpolateChannel times stream (removedPoints perm k) = some out ∧
      out.length = L ∧ out[0]? = stream[0]? ∧ out[L - 1]? = stream[L - 1]? := by
  obtain ⟨r0, rest, hr⟩ := List.exists_cons_of_ne_nil hne
  have hb := removedPoints_bounds (k := k) hperm
  rw [hr] at hb
  have hrs : ∀ r ∈ (r0 :: rest), 0 < r ∧ r + 1 < stream.length := by
    intro r hrmem
    have := hb r hrmem
    omega
  obtain ⟨h1, h2, h3⟩ :=
    interpWrites_preserve times (prevScan r0 rest) (r0 :: rest) (nextScan (r0 :: rest))
      stream hrs
  rw [hr]
  unfold interpolateChannel
  refine ⟨_, rfl, ?_, h2, ?_⟩
  · rw [h1, hlen]
  · rw [← hlen, h3]

/-- Witness for C8 at a concrete input. -/
theorem c8_missing_step_preserves_endpoints_witness :
    ∃ out, interpolateChannel ([0, 1, 2, 3, 4] : List ℚ) [10, 20, 30, 40, 50]
        (removedPoints [1, 0, 2] 2) = some out ∧
      out.length = 5 ∧ out[0]? = ([10, 20, 30, 40, 50] : List ℚ)[0]? ∧
      out[5 - 1]? = ([10, 20, 30, 40, 50] : List ℚ)[5 - 1]? :=
  c8_missing_step_preserves_endpoints [0, 1, 2, 3, 4] [10, 20, 30, 40, 50] [1, 0, 2] 2 5
    rfl (by decide)
    (by
      intro h
      have := congrArg List.length h
      simp [removedPoints] at this)

/-- C1 (evaluation at the failing input): on `path1` of batch shape `[3]` and
`path2` of batch shape `[5, 7]`, `LogsignatureDiscrepancy.forward` does not
return a `[3, 5, 7]`-shaped tensor: the time-channel broadcast loop prepends
`path2`'s batch dimensions in reverse order, so the time channel reaches
`torch.cat` with shape `[7, 5, L, 1]` against `path2`'s `[5, 7, L, C]` and
the concatenation raises a shape mismatch. -/
theorem c1_broadcast_shape_law_fails_on_rank2 :
    LogsignatureDiscrepancy.forward (K := ℝ) ⟨1, 2, 2, false, none⟩
      (fun _ _ _ => Except.ok [0]) [0, 1]
      ⟨[3, 2, 1], List.replicate 6 0⟩ ⟨[5, 7, 2, 1], List.replicate 70 0⟩
      = .error .shapeMismatch := rfl

/-- C3 (evaluation at the failing input): the time-augmentation step itself
fails on a path with batch shape `[2, 3]`: the loop builds the broadcast
time channel with shape `[3, 2, L, 1]` (reversed batch dimensions), so
`torch.cat` rejects it instead of appending the time channel. -/
theorem c3_time_augmentation_fails_on_rank2 :
    timeAugment (K := ℚ) [0, 1] ⟨[2, 3, 2, 1], List.replicate 12 0⟩
      = .error .shapeMismatch := rfl

/-- C2 (counterexample): for a path `P` of batch shape `[2, 3]`,
`forward(times, P, P)` does not return a tensor of zeros on the diagonal —
it raises a shape mismatch at the time-channel concatenation, because the
broadcast loop reverses the batch dimensions. -/
theorem c2_counterexample_rank2_batch :
    LogsignatureDiscrepancy.forward (K := ℝ) ⟨1, 2, 2, false, none⟩
      (fun _ _ _ => Except.ok [0]) [0, 1]
      ⟨[2, 3, 2, 1], List.replicate 12 0⟩ ⟨[2, 3, 2, 1], List.replicate 12 0⟩
      = .error .shapeMismatch := rfl

/-- C4: for every depth < 1, constructing `LogsignatureDiscrepancy` with
`pseudometric=True` fails synchronously in `__init__` (the call to
`signatory.logsignature_channels`), and with `pseudometric=False` the
construction succeeds but every evaluation of `forward` on well-formed
inputs fails synchronously at the `signatory.logsignature` call; in both
cases the failure is the invalid-depth rejection of the external signatory
primitive, whose declared contract (depth < 1 is rejected) is taken as a
hypothesis. -/
theorem c4_invalid_depth_rejected [LinearOrderedField K] [HPow K K K]
    (lschannels : ℕ → ℤ → Except TErr ℕ)
    (logsig : ℕ → ℤ → List K → Except TErr (List K))
    (w : ℕ → ℕ → ℕ → K) (in_channels : ℕ) (depth : ℤ) (p : K)
    (hd : depth < 1)
    (hchan : ∀ c, lschannels c depth = .error .invalidDepth)
    (hlog : ∀ c x, logsig c depth x = .error .invalidDepth) :
    LogsignatureDiscrepancy.init lschannels w in_channels depth p true
      = .error .invalidDepth ∧
    ∀ (m : LogsignatureDiscrepancy K) (S1 S2 : List ℕ) (L C1 C2 : ℕ)
      (times : List K) (path1 path2 : Tensor K),
      LogsignatureDiscrepancy.init lschannels w in_channels depth p false = .ok m →
      S1.reverse = S1 → S2.reverse = S2 → times.length = L → 0 < L →
      path1.shape = S1 ++ [L, C1] → path2.shape = S2 ++ [L, C2] →
      0 < C1 → 0 < C2 → S1.prod ≠ 0 → S2.prod ≠ 0 →
      path1.data ≠ [] → path2.data ≠ [] →
      m.forward logsig times path1 path2 = .error .invalidDepth := by
  constructor
  · unfold LogsignatureDiscrepancy.init
    rw [if_pos rfl, hchan]
    rfl
  · intro m S1 S2 L C1 C2 times path1 path2 hm hS1 hS2 ht hL h1 h2 hC1 hC2 hn1 hn2 hd1 hd2
    have hm' : m = ⟨in_channels, depth, p, false, none⟩ := by
      unfold LogsignatureDiscrepancy.init at hm
      rw [if_neg (by simp)] at hm
      exact (Except.ok.injEq _ _).mp hm |>.symm
    subst hm'
    have htne : times ≠ [] := by
      intro h
      rw [h] at ht
      simp at ht
      omega
    have hA1 := timeAugment_ok times S1 L C1 path1 hS1 h1 ht
    set Ad1 : List K := (List.zipWith (fun a b => a ++ b)
      (chunks 1 ((List.replicate S1.prod times).flatten))
      (chunks C1 path1.data)).flatten with hAd1
    have hA2 := timeAugment_ok times S2 L C2 path2 hS2 h2 ht
    simp only [LogsignatureDiscrepancy.forward, hA1, hA2, except_bind_ok]
    have hsp : Tensor.sizePen (⟨S1 ++ [L, 1 + C1], Ad1⟩ : Tensor K) = L := by
      simp [Tensor.sizePen, dropLast_pair, List.getLastD_concat]
    have hsl : Tensor.sizeLast (⟨S1 ++ [L, 1 + C1], Ad1⟩ : Tensor K) = 1 + C1 := by
      simp [Tensor.sizeLast, getLastD_pair]
    have hbl : batchLogsig logsig depth
        ((⟨S1 ++ [L, 1 + C1], Ad1⟩ : Tensor K).viewNeg1
          (Tensor.sizePen (⟨S1 ++ [L, 1 + C1], Ad1⟩ : Tensor K))
          (Tensor.sizeLast (⟨S1 ++ [L, 1 + C1], Ad1⟩ : Tensor K)))
        = .error .invalidDepth := by
      apply batchLogsig_error _ _ _ _ _ hlog
      show chunks _ Ad1 ≠ []
      have hsz : (Tensor.viewNeg1 (⟨S1 ++ [L, 1 + C1], Ad1⟩ : Tensor K)
          (Tensor.sizePen (⟨S1 ++ [L, 1 + C1], Ad1⟩ : Tensor K))
          (Tensor.sizeLast (⟨S1 ++ [L, 1 + C1], Ad1⟩ : Tensor K))).sizePen
          * (Tensor.viewNeg1 (⟨S1 ++ [L, 1 + C1], Ad1⟩ : Tensor K)
          (Tensor.sizePen (⟨S1 ++ [L, 1 + C1], Ad1⟩ : Tensor K))
          (Tensor.sizeLast (⟨S1 ++ [L, 1 + C1], Ad1⟩ : Tensor K))).sizeLast
          = L * (1 + C1) := by
        show Tensor.sizePen (⟨S1 ++ [L, 1 + C1], Ad1⟩ : Tensor K)
          * Tensor.sizeLast (⟨S1 ++ [L, 1 + C1], Ad1⟩ : Tensor K) = L * (1 + C1)
        rw [hsp, hsl]
      rw [hsz, hAd1]
      apply chunks_ne_nil (by positivity)
      exact catData_ne_nil _ _ (flatten_replicate_ne_nil hn1 htne) hd1 (by omega)
    rw [hbl]
    rfl

/-- Witness for C4 at depth `-1` with a concrete model of the signatory
contract. -/
theorem c4_invalid_depth_rejected_witness :
    LogsignatureDiscrepancy.init (K := ℝ)
        (fun _ d => if d < 1 then .error .invalidDepth else .ok 1)
        (fun _ _ _ => 0) 1 (-1) 2 true = .error .invalidDepth ∧
    (⟨1, -1, 2, false, none⟩ : LogsignatureDiscrepancy ℝ).forward
        (fun _ d _ => if d < 1 then Except.error TErr.invalidDepth else Except.ok [0])
        [0, 1] ⟨[2, 1], [0, 0]⟩ ⟨[2, 1], [0, 0]⟩ = .error .invalidDepth := by
  have h := c4_invalid_depth_rejected (K := ℝ)
    (fun _ d => if d < 1 then .error .invalidDepth else .ok 1)
    (fun _ d _ => if d < 1 then Except.error TErr.invalidDepth else Except.ok [0])
    (fun _ _ _ => 0) 1 (-1) 2 (by decide) (fun c => by norm_num) (fun c x => by norm_num)
  refine ⟨h.1, ?_⟩
  exact h.2 ⟨1, -1, 2, false, none⟩ [] [] 2 1 1 [0, 1] ⟨[2, 1], [0, 0]⟩ ⟨[2, 1], [0, 0]⟩
    rfl rfl rfl rfl (by decide) rfl rfl (by decide) (by decide) (by decide) (by decide)
    (by simp) (by simp)

theorem idMatrix_check {K : Type*} [Zero K] [One K] (n : ℕ) :
    (Option.all (fun W => W.length == n && W.all fun row => row.length == n)
      (some (idMatrix K n))) = true := by
  simp only [Option.all_some, Bool.and_eq_true, beq_iff_eq, List.all_eq_true]
  constructor
  · simp [idMatrix]
  · intro row hrow
    simp only [idMatrix, List.mem_map] at hrow
    obtain ⟨i, _, rfl⟩ := hrow
    simp

/-- C5: with `pseudometric=False` the learned reprojection degenerates to a
no-op.  For `LogsignatureDiscrepancy`, `forward` of a pseudometric-off
module equals the pipeline that norms the raw un-reprojected logsignature
difference; for `L2Discrepancy`, the module passes an absent linear argument
to the kernel, which then equals the raw-difference integral, and passing
the explicit identity matrix gives the same result (the parameter behaves as
the identity). -/
theorem c5_pseudometric_off_is_identity [LinearOrderedField K] [HPow K K K]
    (logsig : ℕ → ℤ → List K → Except TErr (List K)) (c : ℕ) (d : ℤ) (p : K)
    (times : List K) (path1 path2 : Tensor K)
    (w : ℕ → ℕ → K) (cL : ℕ) (q1 q2 : List (List K)) (C : ℕ)
    (hq1 : ∀ r ∈ q1, r.length = C) (hq2 : ∀ r ∈ q2, r.length = C)
    (hC : (q1.headD []).length = C) :
    LogsignatureDiscrepancy.forward ⟨c, d, p, false, none⟩ logsig times path1 path2
      = logsigRawDiscrepancy logsig d p times path1 path2 ∧
    (L2Discrepancy.init w cL false).forward times q1 q2
      = l2_discrepancy_raw times q1 q2 ∧
    l2_discrepancy times q1 q2 (some (idMatrix K C)) = l2_discrepancy_raw times q1 q2 := by
  refine ⟨?_, ?_, ?_⟩
  · simp only [LogsignatureDiscrepancy.forward, logsigRawDiscrepancy]
    simp [except_bind_ok]
  · rfl
  · subst hC
    simp only [l2_discrepancy, l2_discrepancy_raw]
    by_cases h1 : times.length < 2
    · rw [if_pos h1, if_pos h1]
    · rw [if_neg h1, if_neg h1]
      by_cases h2 : ¬ (q1.length = times.length ∧ q2.length = times.length)
      · rw [if_pos h2, if_pos h2]
      · rw [if_neg h2, if_neg h2]
        by_cases h3 : ¬ (q1.all (fun r => r.length == (q1.headD []).length)
            ∧ q2.all (fun r => r.length == (q1.headD []).length))
        · rw [if_pos h3, if_pos h3]
        · rw [if_neg h3, if_neg h3]
          rw [if_neg (by
            simp only [not_not]
            exact idMatrix_check _)]
          have hdiffs : List.zipWith
              (fun r1 r2 => matvec (idMatrix K (q1.headD []).length)
                (List.zipWith (fun a b => a - b) r1 r2)) q1 q2
              = List.zipWith (fun r1 r2 => List.zipWith (fun a b => a - b) r1 r2) q1 q2 := by
            apply zipWith_congr_mem
            intro a ha b hb
            have hlen : (List.zipWith (fun x y => x - y) a b).length
                = (q1.headD []).length := by
              rw [List.length_zipWith, hq1 a ha, hq2 b hb, Nat.min_self]
            rw [← hlen]
            exact matvec_idMatrix _
          simp only [hdiffs]

/-- Witness for C5 at concrete inputs. -/
theorem c5_pseudometric_off_is_identity_witness :
    LogsignatureDiscrepancy.forward (K := ℝ) ⟨1, 2, 2, false, none⟩
        (fun _ _ _ => Except.ok [0]) [0, 1] ⟨[2, 1], [0, 0]⟩ ⟨[2, 1], [0, 0]⟩
      = logsigRawDiscrepancy (fun _ _ _ => Except.ok [0]) 2 2 [0, 1]
        ⟨[2, 1], [0, 0]⟩ ⟨[2, 1], [0, 0]⟩ ∧
    (L2Discrepancy.init (K := ℝ) (fun _ _ => 0) 1 false).forward [0, 1] [[0], [0]] [[1], [1]]
      = l2_discrepancy_raw [0, 1] [[0], [0]] [[1], [1]] ∧
    l2_discrepancy (K := ℝ) [0, 1] [[0], [0]] [[1], [1]] (some (idMatrix ℝ 1))
      = l2_discrepancy_raw [0, 1] [[0], [0]] [[1], [1]] :=
  c5_pseudometric_off_is_identity (fun _ _ _ => Except.ok [0]) 1 2 2 [0, 1]
    ⟨[2, 1], [0, 0]⟩ ⟨[2, 1], [0, 0]⟩ (fun _ _ => 0) 1 [[0], [0]] [[1], [1]] 1
    (by simp) (by simp) rfl

theorem sizePen_mk_pair (S : List ℕ) (a b : ℕ) (d : List K) :
    Tensor.sizePen (⟨S ++ [a, b], d⟩ : Tensor K) = a := by
  simp [Tensor.sizePen, dropLast_pair, List.getLastD_concat]

theorem sizeLast_mk_pair (S : List ℕ) (a b : ℕ) (d : List K) :
    Tensor.sizeLast (⟨S ++ [a, b], d⟩ : Tensor K) = b := by
  simp [Tensor.sizeLast, getLastD_pair]

theorem sizeLast_mk_concat (S : List ℕ) (b : ℕ) (d : List K) :
    Tensor.sizeLast (⟨S ++ [b], d⟩ : Tensor K) = b := by
  simp [Tensor.sizeLast, List.getLastD_concat]

theorem zipWith_zipWith_uniform_length (f : α → β → γ) {d e : ℕ} :
    ∀ (a : List (List α)) (b : List (List β)),
      (∀ x ∈ a, x.length = d) → (∀ y ∈ b, y.length = e) →
      ∀ z ∈ List.zipWith (List.zipWith f) a b, z.length = min d e
  | [], _, _, _ => by simp
  | _ :: _, [], _, _ => by simp
  | u :: a, v :: b, ha, hb => by
    rw [List.zipWith_cons_cons]
    intro z hz
    rcases List.mem_cons.mp hz with rfl | hz'
    · rw [List.length_zipWith, ha u (List.mem_cons_self u a), hb v (List.mem_cons_self v b)]
    · exact zipWith_zipWith_uniform_length f a b
        (fun y hy => ha y (List.mem_cons_of_mem _ hy))
        (fun y hy => hb y (List.mem_cons_of_mem _ hy)) z hz'

theorem sizeLast_mk_two (x y : ℕ) (d : List K) :
    Tensor.sizeLast (⟨[x, y], d⟩ : Tensor K) = y := rfl

theorem dropLast_append_concat (S1 S2 : List ℕ) (b : ℕ) :
    (S1 ++ (S2 ++ [b])).dropLast = S1 ++ S2 := by
  rw [← List.append_assoc, List.dropLast_concat]

theorem normLast_shape_append [LinearOrderedField K] [HPow K K K] (p : K)
    (S1 S2 : List ℕ) (b : ℕ) (d : List K) :
    (normLast p (⟨S1 ++ S2 ++ [b], d⟩ : Tensor K)).shape = S1 ++ S2 := by
  simp [normLast]

theorem normLast_data_append [LinearOrderedField K] [HPow K K K] (p : K)
    (S1 S2 : List ℕ) (b : ℕ) (d : List K) :
    (normLast p (⟨S1 ++ S2 ++ [b], d⟩ : Tensor K)).data
      = (chunks b d).map (pnorm p) := by
  simp only [normLast, Tensor.sizeLast, List.getLastD_concat]

theorem linearApply_mk_append [LinearOrderedField K] (W : List (List K))
    (S1 S2 : List ℕ) (b : ℕ) (d : List K) :
    linearApply W (⟨S1 ++ S2 ++ [b], d⟩ : Tensor K)
      = ⟨S1 ++ S2 ++ [b], ((chunks b d).map (matvec W)).flatten⟩ := by
  simp only [linearApply, Tensor.sizeLast, List.getLastD_concat]

theorem diag_block_zero (vs : List (List ℝ)) (n dfeat : ℕ) (hdf : 0 < dfeat)
    (hvsP : ∀ v ∈ vs, v.length = dfeat) (hlen : vs.length = n)
    {b : ℕ} (hb : b < n) :
    (chunks ((vs.headD []).length)
        (List.zipWith (fun a b => a - b)
          (((chunks ((vs.headD []).length) vs.flatten).map
            (fun blk => (List.replicate n blk).flatten)).flatten)
          ((List.replicate n vs.flatten).flatten)))[b * n + b]?
      = some (List.replicate dfeat (0 : ℝ)) := by
  have hvsne : vs ≠ [] := by
    intro h
    rw [h] at hlen
    simp at hlen
    omega
  have hdv : (vs.headD []).length = dfeat := by
    cases vs with
    | nil => exact absurd rfl hvsne
    | cons v vs' => exact hvsP v (List.mem_cons_self v vs')
  rw [hdv, chunks_flatten_uniform (by omega) vs hvsP]
  have hE1 : (vs.map (fun blk => (List.replicate n blk).flatten)).flatten
      = ((vs.map (fun v => List.replicate n v)).flatten).flatten := by
    rw [show (fun blk => (List.replicate n blk).flatten)
        = (List.flatten ∘ fun v : List ℝ => List.replicate n v) from rfl,
      ← List.map_map, ← List.flatten_flatten]
  have hE2 : (List.replicate n vs.flatten).flatten
      = ((List.replicate n vs).flatten).flatten := by
    rw [show List.replicate n vs.flatten = (List.replicate n vs).map List.flatten from
        (List.map_replicate).symm,
      ← List.flatten_flatten]
  have hE1u : ∀ x ∈ (vs.map (fun v => List.replicate n v)).flatten, x.length = dfeat := by
    intro x hx
    rw [List.mem_flatten] at hx
    obtain ⟨l, hl, hxl⟩ := hx
    rw [List.mem_map] at hl
    obtain ⟨v, hv, rfl⟩ := hl
    rw [List.eq_of_mem_replicate hxl]
    exact hvsP v hv
  have hE2u : ∀ x ∈ (List.replicate n vs).flatten, x.length = dfeat := by
    intro x hx
    rw [List.mem_flatten] at hx
    obtain ⟨l, hl, hxl⟩ := hx
    rw [List.eq_of_mem_replicate hl] at hxl
    exact hvsP x hxl
  have hE1len : ((vs.map (fun v => List.replicate n v)).flatten).length = n * n := by
    rw [length_flatten_uniform (d := n) _ ?_, List.length_map, hlen]
    intro x hx
    rw [List.mem_map] at hx
    obtain ⟨v, _, rfl⟩ := hx
    exact List.length_replicate n v
  have hE2len : ((List.replicate n vs).flatten).length = n * n := by
    rw [length_flatten_uniform (d := n) _ ?_, List.length_replicate]
    intro x hx
    rw [List.eq_of_mem_replicate hx, hlen]
  rw [hE1, hE2,
    zipWith_flatten_flatten _ (forall₂_length_uniform (d := dfeat) _ _
      (by rw [hE1len, hE2len]) hE1u hE2u),
    chunks_flatten_uniform (by omega) _ ?uz]
  case uz =>
    intro z hz
    have := zipWith_zipWith_uniform_length (fun a b => a - b) _ _ hE1u hE2u z hz
    rwa [Nat.min_self] at this
  rw [List.getElem?_zipWith]
  have hbvs : b < vs.length := by omega
  have hvb : vs[b]? = some vs[b] := List.getElem?_eq_getElem hbvs
  have h1 : ((vs.map (fun v => List.replicate n v)).flatten)[b * n + b]? = some vs[b] := by
    rw [getElem?_flatten_block (m := n) ?_ ?_ hb]
    · exact List.getElem?_replicate_of_lt hb
    · intro x hx
      rw [List.mem_map] at hx
      obtain ⟨v, _, rfl⟩ := hx
      exact List.length_replicate n v
    · rw [List.getElem?_map, hvb]
      rfl
  have h2 : ((List.replicate n vs).flatten)[b * n + b]? = some vs[b] := by
    rw [getElem?_flatten_block (m := n) ?_ ?_ hb]
    · exact hvb
    · intro x hx
      rw [List.eq_of_mem_replicate hx, hlen]
    · exact List.getElem?_replicate_of_lt hb
  rw [h1, h2]
  show some (List.zipWith (fun a b => a - b) vs[b] vs[b]) = _
  rw [zipWith_sub_self, hvsP vs[b] (List.getElem_mem hbvs)]

/-- C2 (amended): when `forward` is called with `path1 == path2 == P` (batch
shape `S`), provided the batch shape equals its own reverse (in particular
rank ≤ 1 or no batch dimensions; for any other batch shape `forward` raises
a shape mismatch at the time-channel concatenation, see the counterexample),
the result has shape `S ++ S` and the returned distance is exactly 0 at
every diagonal index pair `(b, b)`, in both pseudometric modes — with
`pseudometric=True` this relies on the learned linear map having no bias so
that it maps the zero difference vector to zero.  The external logsignature
primitive is assumed to succeed with its declared fixed output dimension. -/
theorem c2_forward_diagonal_zero
    (logsig : ℕ → ℤ → List ℝ → Except TErr (List ℝ))
    (m : LogsignatureDiscrepancy ℝ) (S : List ℕ) (L C dfeat : ℕ)
    (times : List ℝ) (P : Tensor ℝ) (brows : List (List (List ℝ)))
    (hS : S.reverse = S)
    (hshape : P.shape = S ++ [L, C])
    (hbl : brows.length = S.prod)
    (hrowsL : ∀ b ∈ brows, b.length = L)
    (hrowsC : ∀ b ∈ brows, ∀ r ∈ b, r.length = C)
    (hdata : P.data = (brows.map List.flatten).flatten)
    (ht : times.length = L)
    (hL : 0 < L) (hC : 0 < C) (hdf : 0 < dfeat)
    (hp : 1 ≤ m.p)
    (hlog : ∀ x, ∃ v, logsig (1 + C) m.depth x = .ok v ∧ v.length = dfeat)
    (hmod : m.pseudometric = true → ∃ W, m.linear = some W ∧ W.length = dfeat) :
    ∃ res, m.forward logsig times P P = .ok res ∧ res.shape = S ++ S ∧
      ∀ b, b < S.prod → res.data[b * S.prod + b]? = some 0 := by
  have hA := timeAugment_ok times S L C P hS hshape ht
  obtain ⟨vs, hvs, hvslen, hvsP⟩ :=
    exceptMap_ok_forall (f := logsig (1 + C) m.depth) (P := fun v => v.length = dfeat)
      (chunks (L * (1 + C))
        ((List.zipWith (fun a b => a ++ b)
          (chunks 1 ((List.replicate S.prod times).flatten)) (chunks C P.data)).flatten))
      (fun x _ => hlog x)
  have hB := batchLogsig_ok logsig m.depth
    (⟨[(S ++ [L, 1 + C]).prod / (L * (1 + C)), L, 1 + C],
      (List.zipWith (fun a b => a ++ b)
        (chunks 1 ((List.replicate S.prod times).flatten)) (chunks C P.data)).flatten⟩ :
      Tensor ℝ)
    vs hvs
  have hrows_flat : ∀ r ∈ brows.flatten, r.length = C := by
    intro r hr
    rw [List.mem_flatten] at hr
    obtain ⟨b, hb, hrb⟩ := hr
    exact hrowsC b hb r hrb
  have hPd : chunks C P.data = brows.flatten := by
    rw [hdata, ← List.flatten_flatten]
    exact chunks_flatten_uniform (by omega) _ hrows_flat
  have htcd : chunks 1 ((List.replicate S.prod times).flatten)
      = ((List.replicate S.prod times).flatten).map (fun a => [a]) := by
    conv_lhs => rw [← flatten_map_singleton ((List.replicate S.prod times).flatten)]
    refine chunks_flatten_uniform one_ne_zero _ ?_
    intro x hx
    rw [List.mem_map] at hx
    obtain ⟨a, _, rfl⟩ := hx
    rfl
  have hsingle : ((List.replicate S.prod times).flatten).map (fun a => ([a] : List ℝ))
      = (List.replicate S.prod (times.map (fun a => ([a] : List ℝ)))).flatten := by
    rw [List.map_flatten, List.map_replicate]
  have hAd : (List.zipWith (fun a b => a ++ b)
      (chunks 1 ((List.replicate S.prod times).flatten)) (chunks C P.data)).flatten
      = ((brows.map (fun b => List.zipWith (fun u v => u ++ v)
          (times.map (fun a => ([a] : List ℝ))) b)).map List.flatten).flatten := by
    rw [htcd, hPd, hsingle,
      zipWith_flatten_flatten _ (forall₂_length_uniform (d := L) _ _ (by simp [hbl])
        (by
          intro a ha
          rw [List.eq_of_mem_replicate ha, List.length_map, ht])
        hrowsL),
      zipWith_replicate_left _ _ brows S.prod hbl.symm, List.flatten_flatten]
  have haug_rows : ∀ ab ∈ brows.map (fun b => List.zipWith (fun u v => u ++ v)
      (times.map (fun a => ([a] : List ℝ))) b), ∀ r ∈ ab, r.length = 1 + C := by
    intro ab hab
    rw [List.mem_map] at hab
    obtain ⟨b, hb, rfl⟩ := hab
    refine zipWith_append_uniform_length _ _ ?_ (hrowsC b hb)
    intro x hx
    rw [List.mem_map] at hx
    obtain ⟨a, _, rfl⟩ := hx
    rfl
  have haug_len : ∀ ab ∈ brows.map (fun b => List.zipWith (fun u v => u ++ v)
      (times.map (fun a => ([a] : List ℝ))) b), ab.length = L := by
    intro ab hab
    rw [List.mem_map] at hab
    obtain ⟨b, hb, rfl⟩ := hab
    rw [List.length_zipWith, List.length_map, ht, hrowsL b hb, Nat.min_self]
  have hchunksAd : chunks (L * (1 + C))
      (((brows.map (fun b => List.zipWith (fun u v => u ++ v)
        (times.map (fun a => ([a] : List ℝ))) b)).map List.flatten).flatten)
      = (brows.map (fun b => List.zipWith (fun u v => u ++ v)
        (times.map (fun a => ([a] : List ℝ))) b)).map List.flatten := by
    refine chunks_flatten_uniform (by positivity) _ ?_
    intro x hx
    rw [List.mem_map] at hx
    obtain ⟨ab, hab, rfl⟩ := hx
    rw [length_flatten_uniform _ (haug_rows ab hab), haug_len ab hab]
  rw [hAd, hchunksAd] at hvslen
  have hvslen' : vs.length = S.prod := by
    rw [hvslen, List.length_map, List.length_map, hbl]
  simp only [LogsignatureDiscrepancy.forward, hA, except_bind_ok, hshape,
    dropLast_dropLast_pair, sizePen_mk_pair, sizeLast_mk_pair, Tensor.viewNeg1, hB,
    except_bind_ok, Tensor.view, sizeLast_mk_two, sizeLast_mk_concat,
    repeat_unsqueezePen_sizeLast, repeat_unsqueezePen_data, repeat_unsqueeze0_data,
    Tensor.expandMid, Tensor.expandLead, subT]
  simp only [if_true, except_bind_ok]
  rcases hpm : m.pseudometric with _ | _
  · simp only [hpm, Bool.false_eq_true, if_false, except_bind_ok]
    refine ⟨_, rfl, normLast_shape_append _ _ _ _ _, ?_⟩
    intro b hb
    have hvsne : vs ≠ [] := by
      intro h
      rw [h] at hvslen'
      simp at hvslen'
      omega
    have hdv : ((vs.headD []).length) = dfeat := by
      cases vs with
      | nil => exact absurd rfl hvsne
      | cons v vs' => exact hvsP v (List.mem_cons_self v vs')
    rw [normLast_data_append, List.getElem?_map,
      diag_block_zero vs S.prod dfeat hdf hvsP hvslen' hb]
    show some (pnorm m.p (List.replicate dfeat 0)) = some 0
    rw [pnorm_zero_real hp _ (fun x hx => List.eq_of_mem_replicate hx)]
  · obtain ⟨W, hW, hWlen⟩ := hmod hpm
    simp only [hpm, if_true, hW, except_bind_ok]
    rw [linearApply_mk_append]
    refine ⟨_, rfl, normLast_shape_append _ _ _ _ _, ?_⟩
    intro b hb
    have hvsne : vs ≠ [] := by
      intro h
      rw [h] at hvslen'
      simp at hvslen'
      omega
    have hdv : ((vs.headD []).length) = dfeat := by
      cases vs with
      | nil => exact absurd rfl hvsne
      | cons v vs' => exact hvsP v (List.mem_cons_self v vs')
    rw [normLast_data_append,
      chunks_flatten_uniform (by rw [hdv]; omega) _ ?ulin, List.getElem?_map,
      List.getElem?_map, diag_block_zero vs S.prod dfeat hdf hvsP hvslen' hb]
    case ulin =>
      intro x hx
      rw [List.mem_map] at hx
      obtain ⟨c, _, rfl⟩ := hx
      rw [matvec_length, hWlen, hdv]
    show some (pnorm m.p (matvec W (List.replicate dfeat 0))) = some 0
    rw [pnorm_zero_real hp _ (matvec_zero_mem W _ (fun x hx => List.eq_of_mem_replicate hx))]

/-- Witness for C2 at a concrete batch-shape-`[2]` input. -/
theorem c2_forward_diagonal_zero_witness :
    ∃ res, (⟨1, 2, 2, false, none⟩ : LogsignatureDiscrepancy ℝ).forward
        (fun _ _ _ => Except.ok [1, 2]) [0, 1]
        ⟨[2, 2, 1], [5, 6, 7, 8]⟩ ⟨[2, 2, 1], [5, 6, 7, 8]⟩ = .ok res ∧
      res.shape = [2] ++ [2] ∧
      ∀ b, b < ([2] : List ℕ).prod → res.data[b * ([2] : List ℕ).prod + b]? = some 0 :=
  c2_forward_diagonal_zero (fun _ _ _ => Except.ok [1, 2]) ⟨1, 2, 2, false, none⟩
    [2] 2 1 2 [0, 1] ⟨[2, 2, 1], [5, 6, 7, 8]⟩ [[[5], [6]], [[7], [8]]]
    rfl rfl rfl (by intro b hb; fin_cases hb <;> rfl)
    (by intro b hb; fin_cases hb <;> (intro r hr; fin_cases hr <;> rfl))
    rfl rfl (by decide) (by decide) (by decide) (by norm_num)
    (fun x => ⟨[1, 2], rfl, rfl⟩) (fun h => absurd h (by decide))
